import Mathlib

/-!
Verification of the header-name extraction layer of the datfiles scraper
(`datfile.py`): the custom "clrmamepro" record-format scanner and event
parser, the markup (XML) path-matching reader, and the top-level
`read_canonical_name` wrapper.  Text is modelled as `List Char`; the
fallible paths return `Except` over the Python exception kinds the code
can actually raise.
-/

namespace Datfiles

/-- Text is a list of characters; Python string slicing maps to list operations. -/
abbrev Str := List Char

/-- Python `str.isspace`, restricted to the ASCII whitespace characters
(the only ones the data can contain). -/
def isspace (c : Char) : Bool :=
  c == ' ' || c == '\t' || c == '\n' || c == '\r' || c == '\x0b' || c == '\x0c'

/-- Embeds `_find`: the index of the first character satisfying `p`, if any. -/
def findChar (p : Char → Bool) : Str → Option Nat
  | [] => none
  | c :: cs => if p c then some 0 else (findChar p cs).map (· + 1)

/-- Embeds `_take_until`: split the text at the first character satisfying `p`;
if none does, the whole text is the first component. -/
def take_until (p : Char → Bool) (text : Str) : Str × Str :=
  match findChar p text with
  | none => (text, [])
  | some e => (text.take e, text.drop e)

/-- Embeds `_skip_while`: drop the leading run of characters satisfying `p`. -/
def skip_while (p : Char → Bool) (text : Str) : Str :=
  (take_until (fun c => !p c) text).2

theorem take_until_nil (p : Char → Bool) : take_until p [] = ([], []) := rfl

theorem take_until_cons_pos (p : Char → Bool) (c : Char) (l : Str) (h : p c = true) :
    take_until p (c :: l) = ([], c :: l) := by
  simp [take_until, findChar, h]

theorem take_until_cons_neg (p : Char → Bool) (c : Char) (l : Str) (h : p c = false) :
    take_until p (c :: l) = (c :: (take_until p l).1, (take_until p l).2) := by
  simp only [take_until, findChar, h, Bool.false_eq_true, if_false]
  cases hf : findChar p l with
  | none => simp
  | some e => simp

/-- The split computed by `take_until` is the span at the negated predicate. -/
theorem take_until_eq_span (p : Char → Bool) :
    ∀ l : Str, take_until p l = (l.takeWhile (fun c => !p c), l.dropWhile (fun c => !p c))
  | [] => rfl
  | c :: l => by
    cases hc : p c with
    | true => simp [take_until_cons_pos p c l hc, List.takeWhile_cons, List.dropWhile_cons, hc]
    | false =>
      simp [take_until_cons_neg p c l hc, take_until_eq_span p l,
        List.takeWhile_cons, List.dropWhile_cons, hc]

theorem skip_while_eq_dropWhile (p : Char → Bool) (l : Str) :
    skip_while p l = l.dropWhile p := by
  have hp : (fun c => !(!p c)) = p := funext fun c => Bool.not_not (p c)
  simp [skip_while, take_until_eq_span, hp]

theorem skip_while_cons_pos (p : Char → Bool) (c : Char) (l : Str) (h : p c = true) :
    skip_while p (c :: l) = skip_while p l := by
  simp [skip_while_eq_dropWhile, List.dropWhile_cons, h]

theorem skip_while_cons_neg (p : Char → Bool) (c : Char) (l : Str) (h : p c = false) :
    skip_while p (c :: l) = c :: l := by
  simp [skip_while_eq_dropWhile, List.dropWhile_cons, h]

theorem dropWhile_head_false (q : Char → Bool) :
    ∀ (l : Str) (c : Char) (r : Str), l.dropWhile q = c :: r → q c = false
  | [], c, r, h => by simp at h
  | a :: l, c, r, h => by
    cases ha : q a with
    | true =>
      rw [List.dropWhile_cons, if_pos (by simp [ha])] at h
      exact dropWhile_head_false q l c r h
    | false =>
      rw [List.dropWhile_cons, if_neg (by simp [ha])] at h
      cases h
      exact ha

/-- If no character of `a` satisfies `p` and the head of `b` (when `b` is
nonempty) does, then `take_until` splits `a ++ b` exactly at the border. -/
theorem take_until_append (p : Char → Bool) :
    ∀ (a b : Str), (∀ c ∈ a, p c = false) → (∀ c r, b = c :: r → p c = true) →
      take_until p (a ++ b) = (a, b)
  | [], [], _, _ => rfl
  | [], c :: r, _, hb => by simpa using take_until_cons_pos p c r (hb c r rfl)
  | a :: as, b, ha, hb => by
    have h1 : p a = false := ha a (List.mem_cons_self a as)
    have h2 := take_until_append p as b (fun c hc => ha c (List.mem_cons_of_mem a hc)) hb
    simp [take_until_cons_neg p a (as ++ b) h1, h2]

/-- Structural events yielded by `_parse_clrmamepro`. -/
inductive PEvent where
  | close
  | opn (name : Str)
  | val (key : Str) (value : Str)
deriving DecidableEq

/-- Outcome of one iteration of the `while True` loop body of
`_parse_clrmamepro`: the loop breaks (generator exhausted), crashes with an
`IndexError` (the `text[0]` access after a key at end of input), or yields
one event together with the remaining text. -/
inductive StepRes where
  | done
  | crash
  | yield (ev : PEvent) (rest : Str)
deriving DecidableEq

/-- Loop body of `_parse_clrmamepro` after the leading whitespace skip:
the close-marker check, then `name, text = _take_until(text, str.isspace)`,
`text = _skip_while(text, str.isspace)`, and the open / quoted value /
unquoted value branches (an empty `text` at the `text[0]` access crashes). -/
def parseStepCore : Str → StepRes
  | [] => .done
  | c :: rest =>
    if c = ')' then .yield .close rest
    else
      match skip_while isspace (take_until isspace (c :: rest)).2 with
      | [] => .crash
      | d :: rest2 =>
        if d = '(' then .yield (.opn (take_until isspace (c :: rest)).1) rest2
        else if d = '"' then
          .yield
            (.val (take_until isspace (c :: rest)).1
              (take_until (fun ch => ch == '"') rest2).1)
            ((take_until (fun ch => ch == '"') rest2).2.drop 1)
        else
          .yield
            (.val (take_until isspace (c :: rest)).1
              (take_until isspace (d :: rest2)).1)
            (take_until isspace (d :: rest2)).2

/-- One iteration of `_parse_clrmamepro`: skip whitespace, then run the body. -/
def parseStep (text : Str) : StepRes :=
  parseStepCore (skip_while isspace text)

theorem length_skip_while_le (p : Char → Bool) (l : Str) :
    (skip_while p l).length ≤ l.length := by
  rw [skip_while_eq_dropWhile]
  exact (List.dropWhile_sublist p).length_le

theorem take_until_fst_append_snd (p : Char → Bool) (l : Str) :
    (take_until p l).1 ++ (take_until p l).2 = l := by
  simp [take_until_eq_span]

theorem length_take_until_snd_le (p : Char → Bool) (l : Str) :
    (take_until p l).2.length ≤ l.length := by
  have := congrArg List.length (take_until_fst_append_snd p l)
  simp only [List.length_append] at this
  omega

theorem parseStepCore_yield_length : ∀ (text : Str) (ev : PEvent) (rest : Str),
    parseStepCore text = .yield ev rest → rest.length < text.length := by
  intro text ev rest h
  match text with
  | [] => simp [parseStepCore] at h
  | c :: tl =>
    by_cases hc : c = ')'
    · rw [parseStepCore, if_pos hc] at h
      cases h
      simp
    · rw [parseStepCore, if_neg hc] at h
      have hlen2 : (take_until isspace (c :: tl)).2.length ≤ tl.length + 1 := by
        have := length_take_until_snd_le isspace (c :: tl)
        simpa using this
      have hskip := length_skip_while_le isspace (take_until isspace (c :: tl)).2
      match h1 : skip_while isspace (take_until isspace (c :: tl)).2 with
      | [] => rw [h1] at h; simp at h
      | d :: rest2 =>
        rw [h1] at h
        dsimp only at h
        have hlen1 : rest2.length + 1 ≤ tl.length + 1 := by
          have := congrArg List.length h1
          simp only [List.length_cons] at this
          omega
        by_cases hd : d = '('
        · rw [if_pos hd] at h
          cases h
          simp only [List.length_cons] at *
          omega
        · rw [if_neg hd] at h
          by_cases hq : d = '"'
          · rw [if_pos hq] at h
            cases h
            have hq2 := length_take_until_snd_le (fun ch => ch == '"') rest2
            have hdrop : ((take_until (fun ch => ch == '"') rest2).2.drop 1).length
                ≤ (take_until (fun ch => ch == '"') rest2).2.length := by
              rw [List.length_drop]
              omega
            simp only [List.length_cons] at *
            omega
          · rw [if_neg hq] at h
            cases h
            have hsplit2 := take_until_fst_append_snd isspace (d :: rest2)
            have hne : (take_until isspace (d :: rest2)).1 ≠ [] := by
              rw [take_until_eq_span]
              have hds : isspace d = false :=
                dropWhile_head_false isspace (take_until isspace (c :: tl)).2 d rest2
                  (by rw [← skip_while_eq_dropWhile]; exact h1)
              simp [List.takeWhile_cons, hds]
            have hlens := congrArg List.length hsplit2
            simp only [List.length_append, List.length_cons] at hlens
            have hpos : 0 < (take_until isspace (d :: rest2)).1.length :=
              List.length_pos.mpr hne
            simp only [List.length_cons] at *
            omega

theorem parseStep_yield_length (text : Str) (ev : PEvent) (rest : Str)
    (h : parseStep text = .yield ev rest) : rest.length < text.length := by
  have h1 := parseStepCore_yield_length _ _ _ h
  have h2 := length_skip_while_le isspace text
  omega

deriving instance DecidableEq for Except

/-- Python exception kinds the header reader can raise. -/
inductive PyError where
  | valueError
  | indexError
  | xmlParseError
  | ioError
deriving DecidableEq

/-- The key whose value is the canonical name. -/
def nameKey : Str := "name".toList

/-- The record scope the name must live in. -/
def clrKey : Str := "clrmamepro".toList

/-- The `for event in parser` loop of `read_header_name_cmp`, driving
`_parse_clrmamepro` one lazy step at a time.  `fuel` bounds the number of
iterations; every yielded event consumes at least one character
(`parseStep_yield_length`), so `text.length + 1` is always enough and the
fuel-exhausted branch is unreachable (`cmpGo_irrel`).  `scope.pop()` on an
empty scope and the generator's `text[0]` on empty text are Python
`IndexError` crashes. -/
def cmpGo : Nat → List Str → Str → Except PyError (Option Str)
  | 0, _, _ => .ok none
  | fuel + 1, scope, text =>
    match parseStep text with
    | .done => .ok none
    | .crash => .error .indexError
    | .yield ev rest =>
      match ev with
      | .opn n => cmpGo fuel (scope ++ [n]) rest
      | .close =>
        if scope = [] then .error .indexError
        else cmpGo fuel scope.dropLast rest
      | .val k v =>
        if k = nameKey ∧ scope = [clrKey] then .ok (some v)
        else cmpGo fuel scope rest

theorem parseStep_nil : parseStep [] = .done := rfl

theorem cmpGo_irrel : ∀ (n f1 f2 : Nat) (scope : List Str) (text : Str),
    text.length ≤ n → text.length < f1 → text.length < f2 →
    cmpGo f1 scope text = cmpGo f2 scope text := by
  intro n
  induction n with
  | zero =>
    intro f1 f2 scope text h0 h1 h2
    have ht : text = [] := List.length_eq_zero.mp (Nat.le_zero.mp h0)
    subst ht
    obtain ⟨a, rfl⟩ : ∃ a, f1 = a + 1 := ⟨f1 - 1, by omega⟩
    obtain ⟨b, rfl⟩ : ∃ b, f2 = b + 1 := ⟨f2 - 1, by omega⟩
    simp [cmpGo, parseStep_nil]
  | succ n ih =>
    intro f1 f2 scope text h0 h1 h2
    obtain ⟨a, rfl⟩ : ∃ a, f1 = a + 1 := ⟨f1 - 1, by omega⟩
    obtain ⟨b, rfl⟩ : ∃ b, f2 = b + 1 := ⟨f2 - 1, by omega⟩
    simp only [cmpGo]
    cases hs : parseStep text with
    | done => rfl
    | crash => rfl
    | yield ev rest =>
      have hlt := parseStep_yield_length text ev rest hs
      cases ev with
      | opn nm => exact ih a b _ rest (by omega) (by omega) (by omega)
      | close =>
        by_cases hsc : scope = []
        · simp [hsc]
        · simp only [if_neg hsc]
          exact ih a b _ rest (by omega) (by omega) (by omega)
      | val k v =>
        by_cases hkv : k = nameKey ∧ scope = [clrKey]
        · simp [hkv]
        · simp only [if_neg hkv]
          exact ih a b _ rest (by omega) (by omega) (by omega)

/-- Embeds `read_header_name_cmp`: drive the event stream from a fresh empty
scope; `Except.ok none` is Python's `return None` (no name found). -/
def read_header_name_cmp (text : Str) : Except PyError (Option Str) :=
  cmpGo (text.length + 1) [] text

/-- The same loop started at an arbitrary scope state (for the induction). -/
def cmpRun (scope : List Str) (text : Str) : Except PyError (Option Str) :=
  cmpGo (text.length + 1) scope text

theorem read_header_name_cmp_eq_cmpRun (text : Str) :
    read_header_name_cmp text = cmpRun [] text := rfl

theorem cmpRun_eq (scope : List Str) (text : Str) :
    cmpRun scope text =
      match parseStep text with
      | .done => .ok none
      | .crash => .error .indexError
      | .yield ev rest =>
        match ev with
        | .opn n => cmpRun (scope ++ [n]) rest
        | .close =>
          if scope = [] then .error .indexError
          else cmpRun scope.dropLast rest
        | .val k v =>
          if k = nameKey ∧ scope = [clrKey] then .ok (some v)
          else cmpRun scope rest := by
  unfold cmpRun
  simp only [cmpGo]
  cases hs : parseStep text with
  | done => rfl
  | crash => rfl
  | yield ev rest =>
    have hlt := parseStep_yield_length text ev rest hs
    cases ev with
    | opn nm =>
      exact cmpGo_irrel rest.length text.length (rest.length + 1) (scope ++ [nm]) rest
        (le_refl _) (by omega) (by omega)
    | close =>
      by_cases hsc : scope = []
      · simp [hsc]
      · simp only [if_neg hsc]
        exact cmpGo_irrel rest.length text.length (rest.length + 1) scope.dropLast rest
          (le_refl _) (by omega) (by omega)
    | val k v =>
      by_cases hkv : k = nameKey ∧ scope = [clrKey]
      · simp [hkv]
      · simp only [if_neg hkv]
        exact cmpGo_irrel rest.length text.length (rest.length + 1) scope rest
          (le_refl _) (by omega) (by omega)

theorem parseStep_space (c : Char) (l : Str) (h : isspace c = true) :
    parseStep (c :: l) = parseStep l := by
  simp [parseStep, skip_while_cons_pos isspace c l h]

theorem cmpRun_space (scope : List Str) (c : Char) (l : Str) (h : isspace c = true) :
    cmpRun scope (c :: l) = cmpRun scope l := by
  rw [cmpRun_eq scope (c :: l), cmpRun_eq scope l, parseStep_space c l h]

/-- A record name or key as the serializer writes it: nonempty, free of
whitespace, and not starting with the close marker. -/
def goodTok (t : Str) : Bool :=
  !t.isEmpty && t.all (fun c => !isspace c) && t.head? != some ')'

/-- An unquoted value: nonempty, free of whitespace, and not starting with
`(` or `"` (which would flip the parse into the open / quoted branches). -/
def goodUval (t : Str) : Bool :=
  !t.isEmpty && t.all (fun c => !isspace c) && t.head? != some '(' && t.head? != some '"'

theorem goodTok_spec (t : Str) (h : goodTok t = true) :
    t ≠ [] ∧ (∀ c ∈ t, isspace c = false) ∧ ∀ c r, t = c :: r → ¬(c = ')') := by
  simp only [goodTok, Bool.and_eq_true, List.all_eq_true] at h
  obtain ⟨⟨h1, h2⟩, h3⟩ := h
  refine ⟨by simpa using h1, fun c hc => by simpa using h2 c hc, ?_⟩
  intro c r hcr hc
  subst hcr
  subst hc
  simp at h3

theorem goodUval_spec (t : Str) (h : goodUval t = true) :
    t ≠ [] ∧ (∀ c ∈ t, isspace c = false) ∧
      ∀ c r, t = c :: r → ¬(c = '(') ∧ ¬(c = '"') := by
  simp only [goodUval, Bool.and_eq_true, List.all_eq_true] at h
  obtain ⟨⟨⟨h1, h2⟩, h3⟩, h4⟩ := h
  refine ⟨by simpa using h1, fun c hc => by simpa using h2 c hc, ?_⟩
  intro c r hcr
  subst hcr
  constructor
  · intro hc
    subst hc
    simp at h3
  · intro hc
    subst hc
    simp at h4

theorem parseStep_close_of (text r : Str) (h : skip_while isspace text = ')' :: r) :
    parseStep text = .yield .close r := by
  rw [parseStep, h, parseStepCore, if_pos rfl]

/-- A serialized record header `name ++ " (" ++ ...`: one open event. -/
theorem parseStep_open (n rest : Str) (hk : goodTok n = true) :
    parseStep (n ++ ' ' :: '(' :: rest) = .yield (.opn n) rest := by
  obtain ⟨hne, hsp, hhd⟩ := goodTok_spec n hk
  obtain ⟨c, t, rfl⟩ := List.exists_cons_of_ne_nil hne
  have hc : isspace c = false := hsp c (List.mem_cons_self c t)
  have hcp : ¬(c = ')') := hhd c t rfl
  have htu : take_until isspace (c :: t ++ ' ' :: '(' :: rest)
      = (c :: t, ' ' :: '(' :: rest) :=
    take_until_append isspace (c :: t) (' ' :: '(' :: rest) hsp
      (by intro x r hx; cases hx; decide)
  simp only [List.cons_append] at htu
  rw [parseStep, List.cons_append, skip_while_cons_neg isspace c _ hc, parseStepCore,
    if_neg hcp, htu]
  have hsw : skip_while isspace (' ' :: '(' :: rest) = '(' :: rest := by
    rw [skip_while_cons_pos isspace ' ' _ (by decide),
      skip_while_cons_neg isspace '(' _ (by decide)]
  rw [hsw]
  simp

/-- A serialized unquoted pair `key ++ " " ++ value ++ " " ++ ...`:
one value event, the value being the run up to the next whitespace. -/
theorem parseStep_pairU (k v rest : Str) (hk : goodTok k = true)
    (hv : goodUval v = true) :
    parseStep (k ++ ' ' :: (v ++ ' ' :: rest)) = .yield (.val k v) (' ' :: rest) := by
  obtain ⟨hne, hsp, hhd⟩ := goodTok_spec k hk
  obtain ⟨hvne, hvsp, hvhd⟩ := goodUval_spec v hv
  obtain ⟨c, t, rfl⟩ := List.exists_cons_of_ne_nil hne
  have hc : isspace c = false := hsp c (List.mem_cons_self c t)
  have hcp : ¬(c = ')') := hhd c t rfl
  have htu : take_until isspace (c :: t ++ (' ' :: (v ++ ' ' :: rest)))
      = (c :: t, ' ' :: (v ++ ' ' :: rest)) :=
    take_until_append isspace (c :: t) (' ' :: (v ++ ' ' :: rest)) hsp
      (by intro x r hx; cases hx; decide)
  simp only [List.cons_append] at htu
  rw [parseStep, List.cons_append, skip_while_cons_neg isspace c _ hc, parseStepCore,
    if_neg hcp, htu]
  obtain ⟨d, u, rfl⟩ := List.exists_cons_of_ne_nil hvne
  have hd : isspace d = false := hvsp d (List.mem_cons_self d u)
  obtain ⟨hdp, hdq⟩ := hvhd d u rfl
  have hsw : skip_while isspace (' ' :: (d :: u ++ ' ' :: rest)) = d :: (u ++ ' ' :: rest) := by
    rw [skip_while_cons_pos isspace ' ' _ (by decide), List.cons_append,
      skip_while_cons_neg isspace d _ hd]
  dsimp only
  simp only [List.cons_append] at hsw ⊢
  rw [hsw]
  have htv : take_until isspace (d :: u ++ ' ' :: rest) = (d :: u, ' ' :: rest) :=
    take_until_append isspace (d :: u) (' ' :: rest) hvsp
      (by intro x r hx; cases hx; decide)
  simp only [List.cons_append] at htv
  simp [if_neg hdp, if_neg hdq, htv]

/-- A serialized quoted pair `key ++ " \"" ++ value ++ "\" " ++ ...`:
one value event carrying the quoted text verbatim (spaces included,
empty allowed). -/
theorem parseStep_pairQ (k v rest : Str) (hk : goodTok k = true)
    (hv : ∀ c ∈ v, ¬(c = '"')) :
    parseStep (k ++ ' ' :: '"' :: (v ++ '"' :: ' ' :: rest))
      = .yield (.val k v) (' ' :: rest) := by
  obtain ⟨hne, hsp, hhd⟩ := goodTok_spec k hk
  obtain ⟨c, t, rfl⟩ := List.exists_cons_of_ne_nil hne
  have hc : isspace c = false := hsp c (List.mem_cons_self c t)
  have hcp : ¬(c = ')') := hhd c t rfl
  have htu : take_until isspace (c :: t ++ (' ' :: '"' :: (v ++ '"' :: ' ' :: rest)))
      = (c :: t, ' ' :: '"' :: (v ++ '"' :: ' ' :: rest)) :=
    take_until_append isspace (c :: t) (' ' :: '"' :: (v ++ '"' :: ' ' :: rest)) hsp
      (by intro x r hx; cases hx; decide)
  simp only [List.cons_append] at htu
  rw [parseStep, List.cons_append, skip_while_cons_neg isspace c _ hc, parseStepCore,
    if_neg hcp, htu]
  have hsw : skip_while isspace (' ' :: '"' :: (v ++ '"' :: ' ' :: rest))
      = '"' :: (v ++ '"' :: ' ' :: rest) := by
    rw [skip_while_cons_pos isspace ' ' _ (by decide),
      skip_while_cons_neg isspace '"' _ (by decide)]
  dsimp only
  rw [hsw]
  have htq : take_until (fun ch => ch == '"') (v ++ '"' :: ' ' :: rest)
      = (v, '"' :: ' ' :: rest) :=
    take_until_append (fun ch => ch == '"') v ('"' :: ' ' :: rest)
      (fun x hx => by simpa using hv x hx)
      (by intro x r hx; cases hx; decide)
  simp [htq]

/-- A quoted value with no closing quote: `_take_until` hands back the whole
remainder with an empty suffix, `text[1:]` of the empty string is empty, and
the parser yields a value event holding the rest of the file. -/
theorem parseStep_quote_unterminated (k v : Str) (hk : goodTok k = true)
    (hv : ∀ c ∈ v, ¬(c = '"')) :
    parseStep (k ++ ' ' :: '"' :: v) = .yield (.val k v) [] := by
  obtain ⟨hne, hsp, hhd⟩ := goodTok_spec k hk
  obtain ⟨c, t, rfl⟩ := List.exists_cons_of_ne_nil hne
  have hc : isspace c = false := hsp c (List.mem_cons_self c t)
  have hcp : ¬(c = ')') := hhd c t rfl
  have htu : take_until isspace (c :: t ++ ' ' :: '"' :: v)
      = (c :: t, ' ' :: '"' :: v) :=
    take_until_append isspace (c :: t) (' ' :: '"' :: v) hsp
      (by intro x r hx; cases hx; decide)
  simp only [List.cons_append] at htu
  rw [parseStep, List.cons_append, skip_while_cons_neg isspace c _ hc, parseStepCore,
    if_neg hcp, htu]
  have hsw : skip_while isspace (' ' :: '"' :: v) = '"' :: v := by
    rw [skip_while_cons_pos isspace ' ' _ (by decide),
      skip_while_cons_neg isspace '"' _ (by decide)]
  rw [hsw]
  have htq : take_until (fun ch => ch == '"') v = (v, []) := by
    have := take_until_append (fun ch => ch == '"') v []
      (fun x hx => by simpa using hv x hx) (by intro x r hx; cases hx)
    simpa using this
  simp [htq]

/-- Abstract syntax of a well-formed custom-format document: nested records
and key/value pairs, a quoted and an unquoted flavour. -/
inductive CmpItem where
  | record (name : Str) (items : List CmpItem)
  | pairQ (key : Str) (value : Str)
  | pairU (key : Str) (value : Str)

mutual

/-- Well-formedness of one item: tokens as `goodTok`, quoted values free of
`"`, unquoted values as `goodUval`. -/
def wfItem : CmpItem → Bool
  | .record n items => goodTok n && wfItems items
  | .pairQ k v => goodTok k && v.all (fun c => !(c == '"'))
  | .pairU k v => goodTok k && goodUval v

/-- Well-formedness of an item list. -/
def wfItems : List CmpItem → Bool
  | [] => true
  | i :: is => wfItem i && wfItems is

end

mutual

/-- Serialize one item to custom-format text (whitespace-separated tokens;
records as `name ( ... )`, quoted pairs as `key "value"`). -/
def serItem : CmpItem → Str
  | .record n items => n ++ ' ' :: '(' :: ' ' :: (serItems items ++ ')' :: [' '])
  | .pairQ k v => k ++ ' ' :: '"' :: (v ++ '"' :: [' '])
  | .pairU k v => k ++ ' ' :: (v ++ [' '])

/-- Serialize an item list by concatenation. -/
def serItems : List CmpItem → Str
  | [] => []
  | i :: is => serItem i ++ serItems is

end

mutual

/-- The first value the resolver would return inside one item, processed at
ambient scope `scope`: a pair matches when its key is `name` and the scope
is exactly `[clrmamepro]`; a record is searched at the extended scope. -/
def itemFind (scope : List Str) : CmpItem → Option Str
  | .record n items => itemsFind (scope ++ [n]) items
  | .pairQ k v => if k = nameKey ∧ scope = [clrKey] then some v else none
  | .pairU k v => if k = nameKey ∧ scope = [clrKey] then some v else none

/-- First match over an item list, in order. -/
def itemsFind (scope : List Str) : List CmpItem → Option Str
  | [] => none
  | i :: is =>
    match itemFind scope i with
    | some v => some v
    | none => itemsFind scope is

end

theorem itemsFind_append (scope : List Str) (a b : List CmpItem) :
    itemsFind scope (a ++ b) =
      match itemsFind scope a with
      | some v => some v
      | none => itemsFind scope b := by
  induction a with
  | nil => simp [itemsFind]
  | cons i is ih =>
    cases hf : itemFind scope i with
    | some v => simp [itemsFind, hf]
    | none => simp [itemsFind, hf, ih]

mutual

/-- Running the resolver loop over one serialized well-formed item followed by
any continuation: either the item produces the returned name, or the loop
moves on to the continuation with the scope restored. -/
theorem cmpRun_serItem (it : CmpItem) (h : wfItem it = true) (scope : List Str)
    (rest : Str) :
    cmpRun scope (serItem it ++ rest) =
      match itemFind scope it with
      | some v => .ok (some v)
      | none => cmpRun scope rest := by
  cases it with
  | record n items =>
    have hw : goodTok n = true ∧ wfItems items = true := by
      simpa [wfItem, Bool.and_eq_true] using h
    have hser : serItem (.record n items) ++ rest
        = n ++ ' ' :: '(' :: (' ' :: (serItems items ++ ')' :: ' ' :: rest)) := by
      simp [serItem, List.append_assoc]
    rw [hser, cmpRun_eq, parseStep_open n _ hw.1]
    dsimp only
    rw [cmpRun_space _ ' ' _ (by decide)]
    rw [cmpRun_serItems items hw.2 (scope ++ [n]) (')' :: ' ' :: rest)]
    have hclose : cmpRun (scope ++ [n]) (')' :: ' ' :: rest) = cmpRun scope rest := by
      rw [cmpRun_eq, parseStep_close_of (')' :: ' ' :: rest) (' ' :: rest)
        (skip_while_cons_neg isspace ')' _ (by decide))]
      dsimp only
      rw [if_neg (by simp), List.dropLast_concat]
      exact cmpRun_space scope ' ' rest (by decide)
    rw [hclose]
    have hfind : itemFind scope (.record n items) = itemsFind (scope ++ [n]) items := by
      simp [itemFind]
    rw [hfind]
  | pairQ k v =>
    have hw : goodTok k = true ∧ ∀ c ∈ v, ¬(c = '"') := by
      have := h
      simp only [wfItem, Bool.and_eq_true, List.all_eq_true] at this
      exact ⟨this.1, fun c hc => by simpa using this.2 c hc⟩
    have hser : serItem (.pairQ k v) ++ rest
        = k ++ ' ' :: '"' :: (v ++ '"' :: ' ' :: rest) := by
      simp [serItem, List.append_assoc]
    rw [hser, cmpRun_eq, parseStep_pairQ k v rest hw.1 hw.2]
    dsimp only
    rw [cmpRun_space scope ' ' rest (by decide)]
    by_cases hkv : k = nameKey ∧ scope = [clrKey]
    · simp [itemFind, hkv]
    · simp [itemFind, hkv]
  | pairU k v =>
    have hw : goodTok k = true ∧ goodUval v = true := by
      simpa [wfItem, Bool.and_eq_true] using h
    have hser : serItem (.pairU k v) ++ rest = k ++ ' ' :: (v ++ ' ' :: rest) := by
      simp [serItem, List.append_assoc]
    rw [hser, cmpRun_eq, parseStep_pairU k v rest hw.1 hw.2]
    dsimp only
    rw [cmpRun_space scope ' ' rest (by decide)]
    by_cases hkv : k = nameKey ∧ scope = [clrKey]
    · simp [itemFind, hkv]
    · simp [itemFind, hkv]

/-- Running the resolver loop over a serialized well-formed item list followed
by any continuation. -/
theorem cmpRun_serItems (its : List CmpItem) (h : wfItems its = true)
    (scope : List Str) (rest : Str) :
    cmpRun scope (serItems its ++ rest) =
      match itemsFind scope its with
      | some v => .ok (some v)
      | none => cmpRun scope rest := by
  cases its with
  | nil => simp [serItems, itemsFind]
  | cons i is =>
    have hw : wfItem i = true ∧ wfItems is = true := by
      simpa [wfItems, Bool.and_eq_true] using h
    have hser : serItems (i :: is) ++ rest = serItem i ++ (serItems is ++ rest) := by
      simp [serItems, List.append_assoc]
    rw [hser, cmpRun_serItem i hw.1 scope (serItems is ++ rest)]
    cases hf : itemFind scope i with
    | some v => simp [itemsFind, hf]
    | none =>
      rw [cmpRun_serItems is hw.2 scope rest]
      simp [itemsFind, hf]

end

/-- Parsing a serialized well-formed document returns exactly the first
name-at-clrmamepro-scope value, or `None` when there is none; no error. -/
theorem read_header_name_cmp_ser (F : List CmpItem) (h : wfItems F = true) :
    read_header_name_cmp (serItems F) = .ok (itemsFind [] F) := by
  have h1 := cmpRun_serItems F h [] []
  rw [List.append_nil] at h1
  rw [read_header_name_cmp_eq_cmpRun, h1]
  cases hf : itemsFind [] F with
  | some v => rfl
  | none =>
    rw [cmpRun_eq]
    simp [parseStep_nil]

/-- A markup element as `ElementTree` exposes it: tag, `.text` (which is
`None` when the element has no text content), and child elements. -/
inductive XmlNode where
  | elem (tag : Str) (text : Option Str) (children : List XmlNode)

/-- `iterparse` events: `start` carries the tag; at `end` the tag and the
element's accumulated `.text` are available. -/
inductive XEvent where
  | startEv (tag : Str)
  | endEv (tag : Str) (text : Option Str)

/-- The outer tag of the target path. -/
def dataTag : Str := "datafile".toList

/-- The inner tag of the target path. -/
def headerTag : Str := "header".toList

mutual

/-- Document-order `start`/`end` event stream of one element. -/
def nodeEvents : XmlNode → List XEvent
  | .elem tag tx children => .startEv tag :: (forestEvents children ++ [.endEv tag tx])

/-- Event stream of a sequence of sibling elements. -/
def forestEvents : List XmlNode → List XEvent
  | [] => []
  | n :: ns => nodeEvents n ++ forestEvents ns

end

/-- The event loop of `read_header_name_xml`: push the tag on `start`, pop on
`end`, and return the element's `.text` immediately when an `end` event for a
`name` element leaves the stack exactly `["datafile", "header"]`.  Events
generated from a well-formed document are balanced, so the stack is never
empty at an `end` event and `scope.pop()` (modelled by `dropLast`) cannot
crash. -/
def xmlLoop : List Str → List XEvent → Option Str
  | _, [] => none
  | scope, .startEv tag :: rest => xmlLoop (scope ++ [tag]) rest
  | scope, .endEv tag tx :: rest =>
    if tag = nameKey ∧ scope.dropLast = [dataTag, headerTag] then tx
    else xmlLoop scope.dropLast rest

/-- Embeds `read_header_name_xml`, run on the event stream of a well-formed
document.  A matched element with no text returns its `.text = None`, which is
indistinguishable from the no-match `return None`. -/
def read_header_name_xml (doc : XmlNode) : Option Str :=
  xmlLoop [] (nodeEvents doc)

mutual

/-- The `.text` of the first element (in end-event order) named `name` whose
ancestor path is exactly `datafile/header`, searching inside one element whose
ancestor path is `scope`. -/
def nodeFind (scope : List Str) : XmlNode → Option (Option Str)
  | .elem tag tx children =>
    match forestFind (scope ++ [tag]) children with
    | some t => some t
    | none => if tag = nameKey ∧ scope = [dataTag, headerTag] then some tx else none

/-- First match over sibling elements, in order. -/
def forestFind (scope : List Str) : List XmlNode → Option (Option Str)
  | [] => none
  | n :: ns =>
    match nodeFind scope n with
    | some t => some t
    | none => forestFind scope ns

end

mutual

/-- The loop over one element's events followed by any continuation: either
the element (or a descendant) is the match, or the loop continues with the
scope restored. -/
theorem xmlLoop_node (n : XmlNode) (scope : List Str) (rest : List XEvent) :
    xmlLoop scope (nodeEvents n ++ rest) =
      match nodeFind scope n with
      | some t => t
      | none => xmlLoop scope rest := by
  cases n with
  | elem tag tx children =>
    have hev : nodeEvents (.elem tag tx children) ++ rest
        = .startEv tag :: (forestEvents children ++ (.endEv tag tx :: rest)) := by
      simp [nodeEvents, List.append_assoc]
    rw [hev]
    simp only [xmlLoop]
    rw [xmlLoop_forest children (scope ++ [tag]) (.endEv tag tx :: rest)]
    cases hf : forestFind (scope ++ [tag]) children with
    | some t => simp [nodeFind, hf]
    | none =>
      simp only [xmlLoop, List.dropLast_concat, nodeFind, hf]
      by_cases hc : tag = nameKey ∧ scope = [dataTag, headerTag]
      · simp [hc]
      · simp [hc]

/-- The loop over a sibling sequence's events followed by any continuation. -/
theorem xmlLoop_forest (F : List XmlNode) (scope : List Str) (rest : List XEvent) :
    xmlLoop scope (forestEvents F ++ rest) =
      match forestFind scope F with
      | some t => t
      | none => xmlLoop scope rest := by
  cases F with
  | nil => simp [forestEvents, forestFind]
  | cons n ns =>
    have hev : forestEvents (n :: ns) ++ rest = nodeEvents n ++ (forestEvents ns ++ rest) := by
      simp [forestEvents, List.append_assoc]
    rw [hev, xmlLoop_node n scope (forestEvents ns ++ rest)]
    cases hf : nodeFind scope n with
    | some t => simp [forestFind, hf]
    | none =>
      rw [xmlLoop_forest ns scope rest]
      simp [forestFind, hf]

end

/-- Characterization of the markup resolver on well-formed documents: it
returns the `.text` of the first `name` element at path `datafile/header`
(collapsing a `None` text into the no-match result), and `None` when there is
no such element. -/
theorem read_header_name_xml_eq (doc : XmlNode) :
    read_header_name_xml doc =
      match nodeFind [] doc with
      | some t => t
      | none => none := by
  have h := xmlLoop_node doc [] []
  rw [List.append_nil] at h
  rw [read_header_name_xml, h]
  cases nodeFind [] doc with
  | some t => rfl
  | none => rfl

mutual

/-- No element strictly deeper than the target path can match: the ancestor
path only grows along the recursion, and the match needs length exactly 2. -/
theorem nodeFind_long (n : XmlNode) (scope : List Str) (h : 2 < scope.length) :
    nodeFind scope n = none := by
  cases n with
  | elem tag tx children =>
    have hf := forestFind_long children (scope ++ [tag]) (by simp; omega)
    simp only [nodeFind, hf]
    rw [if_neg]
    intro hc
    rw [hc.2] at h
    simp at h

/-- No sibling sequence at a too-deep scope can contain a match. -/
theorem forestFind_long (F : List XmlNode) (scope : List Str) (h : 2 < scope.length) :
    forestFind scope F = none := by
  cases F with
  | nil => rfl
  | cons n ns =>
    have h1 := nodeFind_long n scope h
    have h2 := forestFind_long ns scope h
    simp [forestFind, h1, h2]

end

/-- A datfile input together with its declared format tag: for the markup
format, the outcome of the underlying markup decoder on the file's bytes (a
well-formed document, or the well-formedness failure that `iterparse` raises
as `xml.etree.ElementTree.ParseError`); for the custom format, the raw text. -/
inductive DatSource where
  | xml (parsed : Except Unit XmlNode)
  | cmp (text : Str)

/-- Embeds `read_canonical_name`: dispatch on the format tag, then raise
`ValueError` (`"datfile does not contain header with name"`) when the chosen
variant reports no name; variant errors propagate unchanged. -/
def read_canonical_name : DatSource → Except PyError Str
  | .xml (.error _) => .error .xmlParseError
  | .xml (.ok doc) =>
    match read_header_name_xml doc with
    | none => .error .valueError
    | some n => .ok n
  | .cmp text =>
    match read_header_name_cmp text with
    | .error e => .error e
    | .ok none => .error .valueError
    | .ok (some n) => .ok n

/-- Two successive calls of `read_canonical_name` on the same immutable input:
all parser state (scope stack, generator, parser handle) is created inside a
call and discarded with it, so nothing carries over between the calls. -/
def runTwice (src : DatSource) : Except PyError Str × Except PyError Str :=
  (read_canonical_name src, read_canonical_name src)

/-- A file as `path.read_text()` consumes it: the whole file is read up to
end-of-file before parsing starts.  A `none` cell models a position at which
reading raises an `OSError` (a source that errors once read past a marker). -/
def read_text : List (Option Char) → Except PyError Str
  | [] => .ok []
  | some c :: rest =>
    match read_text rest with
    | .ok t => .ok (c :: t)
    | .error e => .error e
  | none :: _ => .error .ioError

/-- The custom-format variant applied to an on-disk file: `_parse_clrmamepro`
first runs `text = path.read_text()` and only then starts scanning. -/
def read_header_name_cmp_file (file : List (Option Char)) : Except PyError (Option Str) :=
  match read_text file with
  | .error e => .error e
  | .ok text => read_header_name_cmp text

theorem forestFind_append (scope : List Str) (a b : List XmlNode) :
    forestFind scope (a ++ b) =
      match forestFind scope a with
      | some t => some t
      | none => forestFind scope b := by
  induction a with
  | nil => simp [forestFind]
  | cons n ns ih =>
    cases hf : nodeFind scope n with
    | some t => simp [forestFind, hf]
    | none => simp [forestFind, hf, ih]

/-- C10: `_take_until` splits its input into a prefix and a suffix whose
concatenation is the input, no character of the prefix satisfies the
predicate, and the suffix is empty or starts with a satisfying character;
consequently `_skip_while` drops exactly the maximal leading run of
satisfying characters. -/
theorem c10_scanner_postcondition (p : Char → Bool) (text : Str) :
    (take_until p text).1 ++ (take_until p text).2 = text
    ∧ (∀ c ∈ (take_until p text).1, p c = false)
    ∧ ((take_until p text).2 = [] ∨ ∃ c l, (take_until p text).2 = c :: l ∧ p c = true)
    ∧ skip_while p text = text.dropWhile p := by
  refine ⟨take_until_fst_append_snd p text, ?_, ?_, skip_while_eq_dropWhile p text⟩
  · intro c hc
    rw [take_until_eq_span] at hc
    simp only at hc
    have := List.mem_takeWhile_imp hc
    simpa using this
  · rw [take_until_eq_span]
    simp only
    cases hd : text.dropWhile (fun c => !p c) with
    | nil => exact Or.inl rfl
    | cons c l =>
      refine Or.inr ⟨c, l, rfl, ?_⟩
      have := dropWhile_head_false (fun c => !p c) text c l hd
      simpa using this

/-- C1: for every well-formed custom-format input whose top-level record named
`clrmamepro` contains a `name` pair at depth exactly `["clrmamepro"]` (no
earlier pair matching there), `read_header_name_cmp` returns exactly the
pair's value: a quoted value is returned whole (embedded spaces preserved,
empty allowed by `wfItems`), an unquoted value is the single whitespace-free
token. -/
theorem c1_cmp_name_resolved (x : Str) (p : CmpItem)
    (pre inpre inpost post : List CmpItem)
    (hp : p = .pairQ nameKey x ∨ p = .pairU nameKey x)
    (hwf : wfItems (pre ++ .record clrKey (inpre ++ p :: inpost) :: post) = true)
    (hpre : itemsFind [] pre = none)
    (hinpre : itemsFind [clrKey] inpre = none) :
    read_header_name_cmp
      (serItems (pre ++ .record clrKey (inpre ++ p :: inpost) :: post))
      = .ok (some x) := by
  rw [read_header_name_cmp_ser _ hwf, itemsFind_append, hpre]
  have hpf : itemFind [clrKey] p = some x := by
    cases hp with
    | inl h => rw [h]; simp [itemFind]
    | inr h => rw [h]; simp [itemFind]
  have hrec : itemFind [] (.record clrKey (inpre ++ p :: inpost)) = some x := by
    simp only [itemFind, List.nil_append]
    rw [itemsFind_append, hinpre]
    simp [itemsFind, hpf]
  simp [itemsFind, hrec]

/-- C1 witness: a concrete document with a quoted name value containing a
space, a preceding sibling pair and a following description pair. -/
theorem c1_cmp_name_resolved_witness :
    read_header_name_cmp
      (serItems ([CmpItem.pairU ("junk".toList) ("j".toList)] ++
        CmpItem.record clrKey
          ([CmpItem.pairU ("version".toList) ("1".toList)] ++
            CmpItem.pairQ nameKey ("Test System".toList) ::
              [CmpItem.pairQ ("description".toList) ("x".toList)]) ::
          [CmpItem.record ("extra".toList) []]))
      = .ok (some ("Test System".toList)) :=
  c1_cmp_name_resolved ("Test System".toList) _ _ _ _ _ (Or.inl rfl)
    (by decide) (by decide) (by decide)

/-- C3 counterexample: on the input `)` — an unmatched close marker reached
with an empty scope stack — the custom-format path fails with Python's
built-in `IndexError` raised by `scope.pop()` on an empty list.  The program
defines no `MalformedInput` (or any other parser-specific) error type, so the
claimed typed structural failure does not exist; the failure is the untyped
crash. -/
theorem c3_counterexample :
    read_header_name_cmp (")".toList) = .error .indexError := by decide

/-- C3 amended: for every well-formed serialized event prefix with no name
match, followed by an unmatched `)`, the custom-format resolution path fails
with the untyped `IndexError` crash from `scope.pop()` on an empty list (not
a typed `MalformedInput`, which the program does not define; and not a
success or a missing-name result). -/
theorem c3_amended_unmatched_close (F : List CmpItem) (rest : Str)
    (hwf : wfItems F = true) (hnone : itemsFind [] F = none) :
    read_header_name_cmp (serItems F ++ ')' :: rest) = .error .indexError := by
  rw [read_header_name_cmp_eq_cmpRun, cmpRun_serItems F hwf [] (')' :: rest), hnone]
  rw [cmpRun_eq, parseStep_close_of (')' :: rest) rest
    (skip_while_cons_neg isspace ')' rest (by decide))]
  simp

/-- C3 amended witness: a balanced record followed by a stray `)`. -/
theorem c3_amended_unmatched_close_witness :
    read_header_name_cmp
      (serItems [CmpItem.record ("game".toList) []] ++ ')' :: [])
      = .error .indexError :=
  c3_amended_unmatched_close [CmpItem.record ("game".toList) []] []
    (by decide) (by decide)

/-- C4 counterexample: the token run `x)y` is taken whole as one bare token —
the embedded `)` is not recognized as a close marker, is part of the token,
and produces no close event; bare tokens stop only at whitespace. -/
theorem c4_counterexample :
    parseStep ("x)y z".toList) = .yield (.val ("x)y".toList) ("z".toList)) []
      ∧ ')' ∈ "x)y".toList := by
  exact ⟨by decide, by decide⟩

/-- C4 amended: `)` is recognized as a standalone close marker exactly when it
is the first character the parser sees at the start of an iteration (after
skipping leading whitespace); a bare token read mid-iteration stops only at
whitespace, so it may contain `)` (nothing in `goodTok`/`goodUval` excludes
an inner `)`). -/
theorem c4_amended_close_marker :
    (∀ (text r : Str), skip_while isspace text = ')' :: r →
      parseStep text = .yield .close r)
    ∧ (∀ (k v rest : Str), goodTok k = true → goodUval v = true →
      parseStep (k ++ ' ' :: (v ++ ' ' :: rest)) = .yield (.val k v) (' ' :: rest)) :=
  ⟨fun text r h => parseStep_close_of text r h,
   fun k v rest hk hv => parseStep_pairU k v rest hk hv⟩

/-- C4 amended witness: a close marker after leading whitespace, and a pair
whose value token contains `)`. -/
theorem c4_amended_close_marker_witness :
    parseStep ("  ) x".toList) = .yield .close (" x".toList)
    ∧ parseStep ("key".toList ++ ' ' :: ("x)y".toList ++ ' ' :: "z".toList))
      = .yield (.val ("key".toList) ("x)y".toList)) (' ' :: "z".toList) :=
  ⟨c4_amended_close_marker.1 ("  ) x".toList) (" x".toList) (by decide),
   c4_amended_close_marker.2 ("key".toList) ("x)y".toList) ("z".toList)
     (by decide) (by decide)⟩

/-- C5 counterexample: on an input whose quoted value is never closed, the
parse does not fail: `_take_until` returns the whole remainder with an empty
suffix, `text[1:]` of the empty string is empty, the parser yields a value
event holding the remainder, and the resolver returns it successfully. -/
theorem c5_counterexample :
    read_header_name_cmp ("clrmamepro ( name \"abc".toList)
      = .ok (some ("abc".toList)) := by decide

/-- C5 amended: an unterminated quoted value is not detected as an error; the
scanner treats end of input as the terminator and yields a value event whose
value is the entire remaining text after the opening quote. -/
theorem c5_amended_unterminated_quote (k v : Str) (hk : goodTok k = true)
    (hv : ∀ c ∈ v, ¬(c = '"')) :
    parseStep (k ++ ' ' :: '"' :: v) = .yield (.val k v) [] :=
  parseStep_quote_unterminated k v hk hv

/-- C5 amended witness. -/
theorem c5_amended_unterminated_quote_witness :
    parseStep ("name".toList ++ ' ' :: '"' :: "abc".toList)
      = .yield (.val ("name".toList) ("abc".toList)) [] :=
  c5_amended_unterminated_quote ("name".toList) ("abc".toList)
    (by decide) (by decide)

/-- C2: for every well-formed markup document whose `datafile` root contains a
`header` child containing a `name` element with text `x` (no earlier match at
the `datafile/header` path), `read_header_name_xml` returns exactly `x` — the
check fires on the `name` end event once the stack after the pop is exactly
`["datafile", "header"]`; `name` elements anywhere else (deeper inside the
`name` element, elsewhere in `pre`, `hpre`, or after the match) are ignored. -/
theorem c2_xml_name_resolved (rt ht : Option Str) (x : Str)
    (pre post hpre hpost kids : List XmlNode)
    (h1 : forestFind [dataTag] pre = none)
    (h2 : forestFind [dataTag, headerTag] hpre = none) :
    read_header_name_xml
      (.elem dataTag rt
        (pre ++ .elem headerTag ht
          (hpre ++ .elem nameKey (some x) kids :: hpost) :: post))
      = some x := by
  rw [read_header_name_xml_eq]
  have hname : nodeFind [dataTag, headerTag] (.elem nameKey (some x) kids)
      = some (some x) := by
    have hk := forestFind_long kids [dataTag, headerTag, nameKey] (by simp)
    simp [nodeFind, hk]
  have hhdr : nodeFind [dataTag]
      (.elem headerTag ht (hpre ++ .elem nameKey (some x) kids :: hpost))
      = some (some x) := by
    simp only [nodeFind]
    have happ : [dataTag] ++ [headerTag] = [dataTag, headerTag] := by simp
    rw [happ, forestFind_append, h2]
    simp [forestFind, hname]
  have hroot : nodeFind [] (.elem dataTag rt
      (pre ++ .elem headerTag ht
        (hpre ++ .elem nameKey (some x) kids :: hpost) :: post))
      = some (some x) := by
    simp only [nodeFind, List.nil_append]
    rw [forestFind_append, h1]
    simp [forestFind, hhdr]
  rw [hroot]

/-- C2 witness: the spec's scenario document, with a description sibling and
a decoy `name` element outside the path. -/
theorem c2_xml_name_resolved_witness :
    read_header_name_xml
      (.elem dataTag none
        ([XmlNode.elem ("game".toList) none [XmlNode.elem nameKey (some ("no".toList)) []]] ++
          XmlNode.elem headerTag none
            ([XmlNode.elem ("version".toList) (some ("1".toList)) []] ++
              XmlNode.elem nameKey (some ("Sys A".toList)) [] ::
                [XmlNode.elem ("description".toList) (some ("d".toList)) []]) ::
            []))
      = some ("Sys A".toList) :=
  c2_xml_name_resolved none none ("Sys A".toList) _ _ _ _ _ (by decide) (by decide)

/-- C6 counterexample: the custom-format variant begins with
`text = path.read_text()`, which consumes the file to end-of-file.  On a file
whose target field is followed by a poisoned position (a source that raises
`OSError` once read past the marker), the variant fails with the read error —
even though the prefix up to and including the target field determines the
result `ok (some "x")`.  It therefore does read input past the target field. -/
theorem c6_counterexample :
    read_header_name_cmp_file
      (("clrmamepro ( name x ) ".toList.map some) ++ [none])
      = .error .ioError
    ∧ read_header_name_cmp ("clrmamepro ( name x ) ".toList)
      = .ok (some ("x".toList)) :=
  ⟨by decide, by decide⟩

/-- C6 amended: the scan itself is suffix-independent — once the target field
is found inside a well-formed prefix, the result is the same for every
continuation of the input (custom format) and every continuation of the event
stream (markup format); but the custom-format variant still reads the whole
file into memory first before scanning. -/
theorem c6_amended_suffix_independent :
    (∀ (F : List CmpItem) (v : Str) (rest : Str), wfItems F = true →
      itemsFind [] F = some v →
      read_header_name_cmp (serItems F ++ rest) = .ok (some v))
    ∧ (∀ (F : List XmlNode) (t : Option Str) (rest : List XEvent),
      forestFind [] F = some t →
      xmlLoop [] (forestEvents F ++ rest) = t) := by
  constructor
  · intro F v rest hwf hfind
    rw [read_header_name_cmp_eq_cmpRun, cmpRun_serItems F hwf [] rest, hfind]
  · intro F t rest hfind
    rw [xmlLoop_forest F [] rest, hfind]

/-- C6 amended witness: the same record followed by arbitrary suffixes. -/
theorem c6_amended_suffix_independent_witness :
    read_header_name_cmp
      (serItems [CmpItem.record clrKey [CmpItem.pairU nameKey ("x".toList)]] ++
        "garbage ) ( \"".toList)
      = .ok (some ("x".toList))
    ∧ xmlLoop []
      (forestEvents [XmlNode.elem dataTag none
        [XmlNode.elem headerTag none [XmlNode.elem nameKey (some ("n".toList)) []]]] ++
        [XEvent.endEv ("stray".toList) none])
      = some ("n".toList) :=
  ⟨c6_amended_suffix_independent.1
      [CmpItem.record clrKey [CmpItem.pairU nameKey ("x".toList)]]
      ("x".toList) ("garbage ) ( \"".toList) (by decide) (by decide),
   c6_amended_suffix_independent.2
      [XmlNode.elem dataTag none
        [XmlNode.elem headerTag none [XmlNode.elem nameKey (some ("n".toList)) []]]]
      (some ("n".toList)) [XEvent.endEv ("stray".toList) none] (by decide)⟩

/-- C7: when a variant's parse completes without structural error but never
observes the target field, `read_canonical_name` fails with the
missing-header-name error (`ValueError`), a failure kind distinct from the
structural failures (`IndexError` on the custom path, `ParseError` from the
markup decoder). -/
theorem c7_missing_name_distinct_error :
    (∀ doc : XmlNode, read_header_name_xml doc = none →
      read_canonical_name (.xml (.ok doc)) = .error .valueError)
    ∧ (∀ text : Str, read_header_name_cmp text = .ok none →
      read_canonical_name (.cmp text) = .error .valueError)
    ∧ PyError.valueError ≠ PyError.indexError
    ∧ PyError.valueError ≠ PyError.xmlParseError := by
  refine ⟨?_, ?_, by decide, by decide⟩
  · intro doc h
    simp [read_canonical_name, h]
  · intro text h
    simp [read_canonical_name, h]

/-- C7 witness: a markup document with no header name, and a custom-format
record with no name pair. -/
theorem c7_missing_name_distinct_error_witness :
    read_canonical_name (.xml (.ok (XmlNode.elem dataTag none [])))
      = .error .valueError
    ∧ read_canonical_name (.cmp ("clrmamepro ( version 1 )".toList))
      = .error .valueError :=
  ⟨c7_missing_name_distinct_error.1 (XmlNode.elem dataTag none []) (by decide),
   c7_missing_name_distinct_error.2.1 ("clrmamepro ( version 1 )".toList) (by decide)⟩

/-- C8: `read_canonical_name` is a deterministic function of the input and the
format tag: two runs on the same immutable input give the same outcome (same
string or same failure kind).  All parser state in the source — scope list,
generator, parser handle — is local to one call; the embedding is state-free
for the same reason, so the two components of `runTwice` coincide. -/
theorem c8_deterministic (src : DatSource) :
    (runTwice src).1 = (runTwice src).2 := rfl

/-- C9: a `datafile/header/name` element that is present but has empty text
content carries `.text = None` (ElementTree), so `read_header_name_xml`
returns the not-found `None` and `read_canonical_name` fails with the
missing-header-name `ValueError` — indistinguishable from an absent `name`;
the custom format instead returns the empty string successfully for an empty
quoted value `name ""`. -/
theorem c9_empty_name_text (rt ht : Option Str) (pre post hpre hpost : List XmlNode)
    (h1 : forestFind [dataTag] pre = none)
    (h2 : forestFind [dataTag, headerTag] hpre = none) :
    read_header_name_xml
      (.elem dataTag rt
        (pre ++ .elem headerTag ht
          (hpre ++ .elem nameKey none [] :: hpost) :: post))
      = none
    ∧ read_canonical_name (.xml (.ok
        (.elem dataTag rt
          (pre ++ .elem headerTag ht
            (hpre ++ .elem nameKey none [] :: hpost) :: post))))
      = .error .valueError
    ∧ read_header_name_cmp (serItems [.record clrKey [.pairQ nameKey []]])
      = .ok (some [])
    ∧ read_canonical_name (.cmp (serItems [.record clrKey [.pairQ nameKey []]]))
      = .ok [] := by
  have hxml : read_header_name_xml
      (.elem dataTag rt
        (pre ++ .elem headerTag ht
          (hpre ++ .elem nameKey none [] :: hpost) :: post))
      = none := by
    rw [read_header_name_xml_eq]
    have hname : nodeFind [dataTag, headerTag] (.elem nameKey none []) = some none := by
      simp [nodeFind, forestFind]
    have hhdr : nodeFind [dataTag]
        (.elem headerTag ht (hpre ++ .elem nameKey none [] :: hpost))
        = some none := by
      simp only [nodeFind]
      have happ : [dataTag] ++ [headerTag] = [dataTag, headerTag] := by simp
      rw [happ, forestFind_append, h2]
      simp [forestFind, hname]
    have hroot : nodeFind [] (.elem dataTag rt
        (pre ++ .elem headerTag ht
          (hpre ++ .elem nameKey none [] :: hpost) :: post))
        = some none := by
      simp only [nodeFind, List.nil_append]
      rw [forestFind_append, h1]
      simp [forestFind, hhdr]
    rw [hroot]
  refine ⟨hxml, ?_, by decide, by decide⟩
  simp [read_canonical_name, hxml]

/-- C9 witness. -/
theorem c9_empty_name_text_witness :
    read_header_name_xml
      (.elem dataTag none
        ([] ++ .elem headerTag none
          ([] ++ XmlNode.elem nameKey none [] :: []) :: []))
      = none
    ∧ read_canonical_name (.xml (.ok
        (.elem dataTag none
          ([] ++ .elem headerTag none
            ([] ++ XmlNode.elem nameKey none [] :: []) :: []))))
      = .error .valueError :=
  ⟨(c9_empty_name_text none none [] [] [] [] (by decide) (by decide)).1,
   (c9_empty_name_text none none [] [] [] [] (by decide) (by decide)).2.1⟩

end Datfiles
